import Mathlib

/-!
# Verification of the ctsha SHA-1 / SHA-2 digest engine

Shallow embedding of `ctsha.hpp`: a word-width-parametrized SHA-1/SHA-2 engine
whose round constants and initialization vectors are derived from first
principles (prime generation and fractional bits of irrational roots).

Modelling conventions:
* Bytes and machine words are `Nat`; `w`-bit unsigned arithmetic is explicit
  `% 2 ^ w`.
* `__float128` Newton-Raphson root extraction (`float128_root`) is modelled by
  exact integer roots (`iroot`), per the library's stated contract that enough
  precision is available so the extracted fractional words are exact.
* The host is modelled as little-endian (the code's behaviour is independent of
  the choice), so `big_endian_to_host` is `byte_swap`.
* The C++ functions recurse without fuel; their Lean counterparts use explicit
  fuel chosen large enough, together with proved unfolding equations showing the
  fuel never runs out, so that the recursion equations match the source.
-/

set_option maxRecDepth 1000000

namespace Ctsha

/-- `xs.at(i)` access for word/byte buffers (all accesses in the source are in
bounds; out-of-range reads default to 0). -/
def nth (xs : List Nat) (i : Nat) : Nat := xs.getD i 0

/-- The two SHA word widths admitted by the `sha_word` concept
(`std::uint32_t` and `std::uint64_t`). -/
inductive Width where
  | w32
  | w64
deriving DecidableEq

/-- `bits<word_t>`: the width of a word in bits. -/
def Width.bits : Width → Nat
  | .w32 => 32
  | .w64 => 64

/-- `detail::bits_per_byte`. -/
def bits_per_byte : Nat := 8

/-- Fueled bit-length computation: `bitLen_go fuel n` is the number of binary
digits of `n`, provided `n ≤ fuel`. -/
def bitLen_go : Nat → Nat → Nat
  | 0, _ => 0
  | fuel + 1, n => if n = 0 then 0 else bitLen_go fuel (n / 2) + 1

/-- Number of binary digits of `n` (0 for 0). -/
def bitLen (n : Nat) : Nat := bitLen_go n n

/-- Binary-search loop for the integer `r`-th root: scans candidate bits from
high to low, keeping `acc` the largest prefix with `acc ^ r ≤ n`. -/
def iroot_go (n r : Nat) : Nat → Nat → Nat
  | 0, acc => acc
  | i + 1, acc =>
    let c := acc + 2 ^ i
    if c ^ r ≤ n then iroot_go n r i c else iroot_go n r i acc

/-- Exact integer `r`-th root: the greatest `k` with `k ^ r ≤ n`.  This is the
exact-arithmetic model of `detail::float128_root` (whose quad-precision
Newton-Raphson iteration exists solely to make the extracted root words
exact). -/
def iroot (n r : Nat) : Nat := iroot_go n r (bitLen n / r + 1) 0

/-- Fueled body of `detail::is_prime` (the fuel only bounds the recursion; it
is always sufficient, see `is_prime_eq`). -/
def is_prime_go : Nat → Nat → Nat → Bool
  | 0, _, _ => true
  | fuel + 1, value, divisor =>
    if divisor * divisor > value then true
    else if value % divisor == 0 then false
    else is_prime_go fuel value (divisor + 1)

/-- `detail::is_prime(value, divisor)`: trial division from `divisor` upward.
As documented in the source, it does NOT give correct results for values 0 and
1 (both report `true`). -/
def is_prime (value divisor : Nat) : Bool := is_prime_go (value + 2) value divisor

/-- Fueled body of `detail::next_prime`. -/
def next_prime_go : Nat → Nat → Nat
  | 0, value => value
  | fuel + 1, value => if is_prime value 2 then value else next_prime_go fuel (value + 1)

/-- `detail::next_prime(value)`: the first value at or after `value` that
`is_prime` accepts.  Fuel `value + 2` is always sufficient by Bertrand's
postulate (see `next_prime_eq`). -/
def next_prime (value : Nat) : Nat := next_prime_go (value + 2) value

/-- `detail::prime(index, value)`: the `index`-th prime counted from `value`,
zero indexed.  The source's default start is `value = 2`. -/
def prime : Nat → Nat → Nat
  | 0, value => value
  | index + 1, value => prime index (next_prime (value + 1))

/-- `nth_prime(index)` of the specification: `detail::prime` at its default
starting value 2. -/
def nth_prime (index : Nat) : Nat := prime index 2

/-! ## Fuel adequacy for `is_prime` and `next_prime` -/

/-- Once the divisor exceeds the value, `is_prime_go` answers `true` whatever
the fuel. -/
theorem is_prime_go_high (f value divisor : Nat) (h : value < divisor) :
    is_prime_go f value divisor = true := by
  cases f with
  | zero => rfl
  | succ f =>
    have hd : 1 ≤ divisor := by omega
    have : divisor * divisor > value := by
      calc value < divisor := h
        _ ≤ divisor * divisor := Nat.le_mul_of_pos_left divisor hd
    simp [is_prime_go, this]

/-- `is_prime_go` does not depend on the fuel, as long as the fuel bounds the
distance from the divisor to the value. -/
theorem is_prime_go_stable :
    ∀ f₁ f₂ value divisor, value < divisor + f₁ → value < divisor + f₂ →
      is_prime_go f₁ value divisor = is_prime_go f₂ value divisor := by
  intro f₁
  induction f₁ with
  | zero =>
    intro f₂ value divisor h₁ h₂
    rw [is_prime_go, is_prime_go_high f₂ value divisor (by omega)]
  | succ f ih =>
    intro f₂ value divisor h₁ h₂
    cases f₂ with
    | zero =>
      rw [is_prime_go_high (f + 1) value divisor (by omega), is_prime_go]
    | succ f₂ =>
      show is_prime_go (f + 1) value divisor = is_prime_go (f₂ + 1) value divisor
      rw [is_prime_go, is_prime_go]
      rcases Nat.lt_or_ge value (divisor * divisor) with hlt | hge
      · have hgt : divisor * divisor > value := hlt
        simp [hgt]
      · have hmul : ¬ divisor * divisor > value := by omega
        simp only [hmul, if_false]
        rcases eq_or_ne (value % divisor) 0 with hmod | hmod
        · simp [hmod]
        · simp [hmod]
          exact ih f₂ value (divisor + 1) (by omega) (by omega)

/-- The unfolding equation of the source's `detail::is_prime`: the chosen fuel
never runs out. -/
theorem is_prime_eq (value divisor : Nat) :
    is_prime value divisor =
      if divisor * divisor > value then true
      else if value % divisor == 0 then false
      else is_prime value (divisor + 1) := by
  show is_prime_go (value + 2) value divisor = _
  rw [is_prime_go]
  rcases Nat.lt_or_ge value (divisor * divisor) with hlt | hge
  · have hgt : divisor * divisor > value := hlt
    simp [hgt]
  · have hmul : ¬ divisor * divisor > value := by omega
    simp only [hmul, if_false]
    rcases eq_or_ne (value % divisor) 0 with hmod | hmod
    · simp [hmod]
    · simp [hmod]
      exact is_prime_go_stable (value + 1) (value + 2) value (divisor + 1) (by omega) (by omega)

/-- `is_prime` with starting divisor `d` accepts exactly the values with no
divisor `m ≥ d` satisfying `m * m ≤ value`. -/
theorem is_prime_iff_aux :
    ∀ k value divisor, 1 ≤ divisor → value + 1 - divisor ≤ k →
      (is_prime value divisor = true ↔ ∀ m, divisor ≤ m → m * m ≤ value → ¬ m ∣ value) := by
  intro k
  induction k with
  | zero =>
    intro value divisor h1 hk
    have hgt : divisor * divisor > value :=
      lt_of_lt_of_le (by omega : value < divisor) (Nat.le_mul_of_pos_left divisor h1)
    rw [is_prime_eq]
    simp only [hgt, if_true, true_iff]
    intro m hm hmm hdvd
    have : divisor * divisor ≤ m * m := Nat.mul_le_mul hm hm
    omega
  | succ k ih =>
    intro value divisor h1 hk
    rw [is_prime_eq]
    rcases Nat.lt_or_ge value (divisor * divisor) with hlt | hge
    · have hgt : divisor * divisor > value := hlt
      simp only [hgt, if_true, true_iff]
      intro m hm hmm hdvd
      have : divisor * divisor ≤ m * m := Nat.mul_le_mul hm hm
      omega
    · have hmul : ¬ divisor * divisor > value := by omega
      simp only [hmul, if_false]
      rcases eq_or_ne (value % divisor) 0 with hmod | hmod
      · have hdvd : divisor ∣ value := Nat.dvd_of_mod_eq_zero hmod
        rw [if_pos (show (value % divisor == 0) = true by simpa using hmod)]
        constructor
        · intro hft
          exact absurd hft (by simp)
        · intro hall
          exact absurd hdvd (hall divisor le_rfl hge)
      · rw [if_neg (show ¬ (value % divisor == 0) = true by simpa using hmod)]
        rw [ih value (divisor + 1) (by omega) (by omega)]
        constructor
        · intro h m hm hmm hdvd
          rcases Nat.eq_or_lt_of_le hm with heq | hlt'
          · subst heq
            exact hmod (Nat.mod_eq_zero_of_dvd hdvd)
          · exact h m hlt' hmm hdvd
        · intro h m hm hmm hdvd
          exact h m (by omega) hmm hdvd

/-- For values at least 2, `is_prime value 2` decides primality. -/
theorem is_prime_iff (value : Nat) (h2 : 2 ≤ value) :
    is_prime value 2 = true ↔ Nat.Prime value := by
  rw [is_prime_iff_aux value value 2 (by omega) (by omega), Nat.prime_def_le_sqrt]
  constructor
  · intro h
    exact ⟨h2, fun m hm hsq => h m hm (Nat.le_sqrt.mp hsq)⟩
  · intro h m hm hmm
    exact h.2 m hm (Nat.le_sqrt.mpr hmm)

/-- Within `value + 2` steps of `value` there is always a point that
`is_prime` accepts (by Bertrand's postulate). -/
theorem exists_is_prime_near (value : Nat) :
    ∃ t, value ≤ t ∧ t < value + (value + 2) ∧ is_prime t 2 = true := by
  rcases Nat.lt_or_ge value 2 with h | h
  · refine ⟨value, le_rfl, by omega, ?_⟩
    interval_cases value <;> decide
  · obtain ⟨p, hp, hgt, hle⟩ := Nat.exists_prime_lt_and_le_two_mul (value - 1) (by omega)
    exact ⟨p, by omega, by omega, (is_prime_iff p hp.two_le).mpr hp⟩

/-- With adequate fuel, `next_prime_go` returns the least `is_prime`-accepted
point at or after `value`. -/
theorem next_prime_go_spec :
    ∀ fuel value, (∃ t, value ≤ t ∧ t < value + fuel ∧ is_prime t 2 = true) →
      is_prime (next_prime_go fuel value) 2 = true ∧ value ≤ next_prime_go fuel value ∧
        ∀ u, value ≤ u → is_prime u 2 = true → next_prime_go fuel value ≤ u := by
  intro fuel
  induction fuel with
  | zero =>
    intro value h
    obtain ⟨t, h1, h2, _⟩ := h
    omega
  | succ f ih =>
    intro value h
    obtain ⟨t, ht1, ht2, ht3⟩ := h
    by_cases hv : is_prime value 2 = true
    · have heq : next_prime_go (f + 1) value = value := by simp [next_prime_go, hv]
      rw [heq]
      exact ⟨hv, le_rfl, fun u hu _ => hu⟩
    · have heq : next_prime_go (f + 1) value = next_prime_go f (value + 1) := by
        simp [next_prime_go, hv]
      rw [heq]
      have hne : t ≠ value := fun he => hv (he ▸ ht3)
      obtain ⟨h1, h2, h3⟩ := ih (value + 1) ⟨t, by omega, by omega, ht3⟩
      refine ⟨h1, by omega, fun u hu hup => ?_⟩
      have hune : u ≠ value := fun he => hv (he ▸ hup)
      exact h3 u (by omega) hup

/-- `next_prime value` is the least `is_prime`-accepted point at or after
`value` (the chosen fuel is always sufficient). -/
theorem next_prime_spec (value : Nat) :
    is_prime (next_prime value) 2 = true ∧ value ≤ next_prime value ∧
      ∀ u, value ≤ u → is_prime u 2 = true → next_prime value ≤ u :=
  next_prime_go_spec (value + 2) value (exists_is_prime_near value)

/-- The unfolding equation of the source's `detail::next_prime`: the fueled
model satisfies the source's defining recursion. -/
theorem next_prime_eq (value : Nat) :
    next_prime value = if is_prime value 2 then value else next_prime (value + 1) := by
  by_cases hv : is_prime value 2 = true
  · simp only [hv, if_true]
    show next_prime_go (value + 2) value = value
    simp [next_prime_go, hv]
  · obtain ⟨a1, a2, a3⟩ := next_prime_spec value
    obtain ⟨b1, b2, b3⟩ := next_prime_spec (value + 1)
    have hne : next_prime value ≠ value := fun h => hv (h ▸ a1)
    have hup : next_prime (value + 1) ≤ next_prime value := b3 _ (by omega) a1
    have hdown : next_prime value ≤ next_prime (value + 1) := a3 _ (by omega) b1
    rw [if_neg hv]
    omega

/-! ## Correctness of `bitLen` and `iroot` -/

theorem bitLen_go_lt : ∀ fuel n, n ≤ fuel → n < 2 ^ bitLen_go fuel n := by
  intro fuel
  induction fuel with
  | zero =>
    intro n h
    have : n = 0 := by omega
    subst this
    simp [bitLen_go]
  | succ f ih =>
    intro n h
    rcases eq_or_ne n 0 with rfl | hn
    · simp [bitLen_go]
    · have hrec : n / 2 ≤ f := by omega
      have := ih (n / 2) hrec
      rw [bitLen_go]
      simp only [hn, if_false]
      rw [pow_succ]
      omega

/-- `n` has at most `bitLen n` binary digits. -/
theorem bitLen_lt (n : Nat) : n < 2 ^ bitLen n := bitLen_go_lt n n le_rfl

/-- The binary search of `iroot_go` maintains the greatest-root invariant. -/
theorem iroot_go_spec (n r : Nat) :
    ∀ i acc, acc ^ r ≤ n → (∀ k, k ^ r ≤ n → k < acc + 2 ^ i) →
      (iroot_go n r i acc) ^ r ≤ n ∧ ∀ k, k ^ r ≤ n → k ≤ iroot_go n r i acc := by
  intro i
  induction i with
  | zero =>
    intro acc h1 h2
    refine ⟨h1, fun k hk => ?_⟩
    have hlt := h2 k hk
    have hacc : iroot_go n r 0 acc = acc := rfl
    simp only [pow_zero] at hlt
    omega
  | succ i ih =>
    intro acc h1 h2
    by_cases hc : (acc + 2 ^ i) ^ r ≤ n
    · have hbound : ∀ k, k ^ r ≤ n → k < acc + 2 ^ i + 2 ^ i := by
        intro k hk
        have := h2 k hk
        have hp : 2 ^ (i + 1) = 2 ^ i + 2 ^ i := by rw [pow_succ]; omega
        omega
      have := ih (acc + 2 ^ i) hc hbound
      simpa [iroot_go, hc] using this
    · have hbound : ∀ k, k ^ r ≤ n → k < acc + 2 ^ i := by
        intro k hk
        by_contra hge
        exact hc (le_trans (Nat.pow_le_pow_left (by omega) r) hk)
      have := ih acc h1 hbound
      simpa [iroot_go, hc] using this

/-- `iroot n r` is the greatest integer whose `r`-th power is at most `n`. -/
theorem iroot_spec (n r : Nat) (hr : 1 ≤ r) :
    (iroot n r) ^ r ≤ n ∧ ∀ k, k ^ r ≤ n → k ≤ iroot n r := by
  have hz : (0 : Nat) ^ r ≤ n := by
    rw [Nat.zero_pow (by omega : 0 < r)]
    omega
  refine iroot_go_spec n r (bitLen n / r + 1) 0 hz ?_
  intro k hk
  by_contra hge
  have hK : 2 ^ (bitLen n / r + 1) ≤ k := by omega
  have h1 : (2 ^ (bitLen n / r + 1)) ^ r ≤ k ^ r := Nat.pow_le_pow_left hK r
  rw [← pow_mul] at h1
  have h2 : bitLen n + 1 ≤ (bitLen n / r + 1) * r := by
    have := Nat.div_add_mod (bitLen n) r
    have := Nat.mod_lt (bitLen n) (by omega : 0 < r)
    nlinarith [Nat.div_mul_le_self (bitLen n) r]
  have h3 : 2 ^ (bitLen n + 1) ≤ 2 ^ ((bitLen n / r + 1) * r) :=
    Nat.pow_le_pow_right (by omega) h2
  have h4 := bitLen_lt n
  have h5 : 2 ^ (bitLen n + 1) = 2 * 2 ^ (bitLen n) := by rw [pow_succ]; omega
  omega

/-! ## Byte-order utilities (`byte_swap`, `big_endian_to_host`, `to_bytes`) -/

/-- `detail::byte_swap`: per-byte reversal of a `W`-bit word. -/
def byte_swap (W : Width) (value : Nat) : Nat :=
  (List.range (W.bits / 8)).foldl
    (fun swapped byte_index =>
      swapped |||
        (((value &&& (0xff <<< (byte_index * bits_per_byte))) >>> (byte_index * bits_per_byte)) <<<
          ((W.bits / 8 - byte_index - 1) * bits_per_byte)))
    0

/-- `detail::big_endian_to_host` on a little-endian host (the modelled choice;
the library's results do not depend on host byte order). -/
def big_endian_to_host (W : Width) (value : Nat) : Nat := byte_swap W value

/-- One word's bytes under `detail::to_bytes<std::endian::big>`: most
significant byte first. -/
def word_bytes_be (W : Width) (element : Nat) : List Nat :=
  (List.range (W.bits / 8)).map (fun byte_index =>
    (element &&& (0xff <<< ((W.bits / 8 - byte_index - 1) * bits_per_byte))) >>>
      ((W.bits / 8 - byte_index - 1) * bits_per_byte))

/-- `detail::to_bytes<std::endian::big>` over an array of words. -/
def to_bytes_be (W : Width) (value : List Nat) : List Nat :=
  value.flatMap (word_bytes_be W)

/-! ## Word operations of FIPS 180-4 section 3.2 / 4.1 -/

/-- `detail::rotate_right` (`ROTR`): `(x >> n) | (x << (w - n))` in `w`-bit
arithmetic. -/
def rotate_right (W : Width) (num_bits x : Nat) : Nat :=
  (x >>> num_bits) ||| ((x <<< (W.bits - num_bits)) % 2 ^ W.bits)

/-- `detail::rotate_left` (`ROTL`): `(x << n) | (x >> (w - n))` in `w`-bit
arithmetic. -/
def rotate_left (W : Width) (num_bits x : Nat) : Nat :=
  ((x <<< num_bits) % 2 ^ W.bits) ||| (x >>> (W.bits - num_bits))

/-- `w`-bit complement `~x`. -/
def wnot (W : Width) (x : Nat) : Nat := x ^^^ (2 ^ W.bits - 1)

/-- `detail::choose` (`Ch`): `(x & y) ^ (~x & z)`. -/
def choose (W : Width) (x y z : Nat) : Nat := (x &&& y) ^^^ (wnot W x &&& z)

/-- `detail::majority` (`Maj`): `(x & y) ^ (x & z) ^ (y & z)`. -/
def majority (x y z : Nat) : Nat :=
  ((x &&& y) ^^^ (x &&& z)) ^^^ (y &&& z)

/-- `detail::parity`: `x ^ y ^ z` (SHA-1 only). -/
def parity (x y z : Nat) : Nat := x ^^^ y ^^^ z

/-- The `Σ0` overloads (FIPS 180-4 equations 4.4 / 4.10). -/
def bigS0 : Width → Nat → Nat
  | .w32, x => rotate_right .w32 2 x ^^^ rotate_right .w32 13 x ^^^ rotate_right .w32 22 x
  | .w64, x => rotate_right .w64 28 x ^^^ rotate_right .w64 34 x ^^^ rotate_right .w64 39 x

/-- The `Σ1` overloads (FIPS 180-4 equations 4.5 / 4.11). -/
def bigS1 : Width → Nat → Nat
  | .w32, x => rotate_right .w32 6 x ^^^ rotate_right .w32 11 x ^^^ rotate_right .w32 25 x
  | .w64, x => rotate_right .w64 14 x ^^^ rotate_right .w64 18 x ^^^ rotate_right .w64 41 x

/-- The `σ0` overloads (FIPS 180-4 equations 4.6 / 4.12). -/
def smallS0 : Width → Nat → Nat
  | .w32, x => rotate_right .w32 7 x ^^^ rotate_right .w32 18 x ^^^ (x >>> 3)
  | .w64, x => rotate_right .w64 1 x ^^^ rotate_right .w64 8 x ^^^ (x >>> 7)

/-- The `σ1` overloads (FIPS 180-4 equations 4.7 / 4.13). -/
def smallS1 : Width → Nat → Nat
  | .w32, x => rotate_right .w32 17 x ^^^ rotate_right .w32 19 x ^^^ (x >>> 10)
  | .w64, x => rotate_right .w64 19 x ^^^ rotate_right .w64 61 x ^^^ (x >>> 6)

/-! ## Message preprocessing (`detail::preprocess_message`, FIPS 180-4 §5) -/

/-- Number of blocks after padding: the source's
`(min_bits + bits<block> - 1) / bits<block>` with
`min_bits = 8·n + 1 + 2·W` and `bits<block> = 16·W`. -/
def num_blocks (W : Width) (original_bytes : Nat) : Nat :=
  (original_bytes * bits_per_byte + 1 + 2 * W.bits + (16 * W.bits - 1)) / (16 * W.bits)

/-- `std::copy` of `vals` into `buffer` starting at index `i`. -/
def store_bytes : List Nat → Nat → List Nat → List Nat
  | buffer, _, [] => buffer
  | buffer, i, v :: vs => store_bytes (buffer.set i v) (i + 1) vs

/-- The padded byte buffer built inside `detail::preprocess_message`:
zero-initialised buffer of a whole number of blocks, the message copied to the
front, the byte `0x80` written after it, and the 64-bit big-endian bit length
copied into the last eight bytes. -/
def padded_bytes (W : Width) (original_message : List Nat) : List Nat :=
  let blocks := num_blocks W original_message.length
  let message := List.replicate (blocks * (16 * (W.bits / 8))) 0
  let message := store_bytes message 0 original_message
  let message := message.set original_message.length 0x80
  let size := word_bytes_be .w64 (original_message.length * bits_per_byte % 2 ^ 64)
  store_bytes message (message.length - size.length) size

/-- `detail::preprocess_message`: the padded bytes regrouped into blocks of 16
words, each word assembled from consecutive bytes in memory order (least
significant byte first, as on the modelled little-endian host). -/
def preprocess_message (W : Width) (original_message : List Nat) : List (List Nat) :=
  let message := padded_bytes W original_message
  (List.range (num_blocks W original_message.length)).map (fun block_index =>
    (List.range 16).map (fun word_index =>
      (List.range (W.bits / 8)).foldl
        (fun word byte_index =>
          word |||
            (nth message ((block_index * 16 + word_index) * (W.bits / 8) + byte_index) <<<
              (byte_index * bits_per_byte)))
        0))

/-! ## Derived constants and initialization vectors -/

/-- `detail::sha2_constant`: the first `W` bits of the fractional part of the
`root`-th root of `prime_number`, modelled exactly:
`⌊2^W · p^(1/root)⌋ - ⌊p^(1/root)⌋ · 2^W`. -/
def sha2_constant (W : Width) (prime_number root : Nat) : Nat :=
  iroot (prime_number * 2 ^ (root * W.bits)) root - iroot prime_number root * 2 ^ W.bits

/-- `detail::sha1_constants`: for round `t`, the most significant 32 bits
(integer and fractional part) of the square root of 2, 3, 5 or 10 according to
the 20-round band, i.e. `uint32_t(sqrt(roots[t/20]) * 2^30)`, modelled exactly
as `⌊sqrt(roots[t/20] · 2^60)⌋ mod 2^32`. -/
def sha1_constants : List Nat :=
  (List.range 80).map (fun index =>
    iroot (nth [2, 3, 5, 10] (index / 20) * 2 ^ 60) 2 % 2 ^ 32)

/-- `detail::sha1_initialization_vector` (FIPS 180-4 §5.3.1): fixed byte
patterns, written byte-swapped in the source to expose the pattern. -/
def sha1_initialization_vector : List Nat :=
  [byte_swap .w32 0x01234567, byte_swap .w32 0x89abcdef, byte_swap .w32 0xfedcba98,
    byte_swap .w32 0x76543210, byte_swap .w32 0xf0e1d2c3]

/-- `detail::sha2_32_bit_constants` (FIPS 180-4 §4.2.2): cube roots of the
first 64 primes at width 32. -/
def sha2_32_bit_constants : List Nat :=
  (List.range 64).map (fun index => sha2_constant .w32 (prime index 2) 3)

/-- `detail::sha2_64_bit_constants` (FIPS 180-4 §4.2.3): cube roots of the
first 80 primes at width 64. -/
def sha2_64_bit_constants : List Nat :=
  (List.range 80).map (fun index => sha2_constant .w64 (prime index 2) 3)

/-- `detail::sha224_initialization_vector` (FIPS 180-4 §5.3.2): the lower 32
bits of the first 64 fractional bits of the square roots of the ninth through
sixteenth primes (`uint32_t` cast of the width-64 derivation). -/
def sha224_initialization_vector : List Nat :=
  (List.range 8).map (fun index => sha2_constant .w64 (prime (index + 8) 2) 2 % 2 ^ 32)

/-- `detail::sha256_initialization_vector` (FIPS 180-4 §5.3.3). -/
def sha256_initialization_vector : List Nat :=
  (List.range 8).map (fun index => sha2_constant .w32 (prime index 2) 2)

/-- `detail::sha384_initialization_vector` (FIPS 180-4 §5.3.4). -/
def sha384_initialization_vector : List Nat :=
  (List.range 8).map (fun index => sha2_constant .w64 (prime (index + 8) 2) 2)

/-- `detail::sha512_initialization_vector` (FIPS 180-4 §5.3.5). -/
def sha512_initialization_vector : List Nat :=
  (List.range 8).map (fun index => sha2_constant .w64 (prime index 2) 2)

/-! ## SHA-1 engine (`detail::sha1`) -/

/-- `detail::sha1_functions`: round function selected by 20-round band
(`Ch`, `Parity`, `Maj`, `Parity`). -/
def sha1_functions (t x y z : Nat) : Nat :=
  match t / 20 with
  | 0 => choose .w32 x y z
  | 1 => parity x y z
  | 2 => majority x y z
  | _ => parity x y z

/-- The 80-word SHA-1 message schedule of one block. -/
def sha1_schedule (block : List Nat) : List Nat :=
  (List.range 80).foldl
    (fun w t =>
      w ++ [if t < 16 then big_endian_to_host .w32 (nth block t)
            else rotate_left .w32 1 (nth w (t - 3) ^^^ nth w (t - 8) ^^^ nth w (t - 14) ^^^ nth w (t - 16))])
    []

/-- One SHA-1 round update of the working variables `[a, b, c, d, e]`. -/
def sha1_round (v : List Nat) (t wt : Nat) : List Nat :=
  match v with
  | [a, b, c, d, e] =>
    let upper_t :=
      (rotate_left .w32 5 a + sha1_functions t b c d + e + nth sha1_constants t + wt) % 2 ^ 32
    [upper_t, a, rotate_left .w32 30 b, c, d]
  | other => other

/-- Fold one block into the running SHA-1 state. -/
def sha1_process_block (state block : List Nat) : List Nat :=
  let w := sha1_schedule block
  let v := (List.range 80).foldl (fun v t => sha1_round v t (nth w t)) state
  state.zipWith (fun si vi => (vi + si) % 2 ^ 32) v

/-- `ctsha::sha1`: the SHA-1 digest (20 bytes) of a byte message. -/
def sha1 (message : List Nat) : List Nat :=
  to_bytes_be .w32
    ((preprocess_message .w32 message).foldl sha1_process_block sha1_initialization_vector)

/-! ## Generic SHA-2 engine (`detail::sha2`) -/

/-- The SHA-2 message schedule of one block; its size equals the number of
round constants (64 at width 32, 80 at width 64). -/
def sha2_schedule (W : Width) (num_constants : Nat) (block : List Nat) : List Nat :=
  (List.range num_constants).foldl
    (fun w t =>
      w ++ [if t < 16 then big_endian_to_host W (nth block t)
            else (smallS1 W (nth w (t - 2)) + nth w (t - 7) + smallS0 W (nth w (t - 15)) +
                nth w (t - 16)) % 2 ^ W.bits])
    []

/-- One SHA-2 round update of the working variables `[a, b, c, d, e, f, g, h]`. -/
def sha2_round (W : Width) (v : List Nat) (kt wt : Nat) : List Nat :=
  match v with
  | [a, b, c, d, e, f, g, h] =>
    let t1 := (h + bigS1 W e + choose W e f g + kt + wt) % 2 ^ W.bits
    let t2 := (bigS0 W a + majority a b c) % 2 ^ W.bits
    [(t1 + t2) % 2 ^ W.bits, a, b, c, (d + t1) % 2 ^ W.bits, e, f, g]
  | other => other

/-- Fold one block into the running SHA-2 state. -/
def sha2_process_block (W : Width) (constants state block : List Nat) : List Nat :=
  let w := sha2_schedule W constants.length block
  let v := (constants.zip w).foldl (fun v kw => sha2_round W v kw.1 kw.2) state
  state.zipWith (fun si vi => (vi + si) % 2 ^ W.bits) v

/-- The final 8-word state of the SHA-2 compression pipeline over a whole
message (before serialization and truncation). -/
def sha2_final_state (W : Width) (constants initialization_vector message : List Nat) : List Nat :=
  (preprocess_message W message).foldl (sha2_process_block W constants) initialization_vector

/-- `detail::sha2`: big-endian serialization of the final state, truncated to
`bytes<digest_bits>` when that is smaller than the state. -/
def sha2 (digest_bits : Nat) (W : Width) (initialization_vector constants message : List Nat) :
    List Nat :=
  let full_digest := to_bytes_be W (sha2_final_state W constants initialization_vector message)
  if (digest_bits + 7) / 8 < 8 * (W.bits / 8) then
    full_digest.take ((digest_bits + 7) / 8)
  else
    full_digest

/-! ## SHA-512/t bootstrap (`detail::sha512_t_initialization_vector`) -/

/-- The intermediate vector: every word of the SHA-512 initialization vector
xored with the repeating byte `0xa5`. -/
def sha512t_intermediate_iv : List Nat :=
  sha512_initialization_vector.map (fun entry => entry ^^^ 0xa5a5a5a5a5a5a5a5)

/-- The derivation message: ASCII `"SHA-512/"` followed by the decimal digits
of `hash_bits`, via the source's three digit-count branches. -/
def sha512t_message (hash_bits : Nat) : List Nat :=
  let head := [0x53, 0x48, 0x41, 0x2d, 0x35, 0x31, 0x32, 0x2f]
  if hash_bits < 10 then
    head ++ [hash_bits + 0x30]
  else if hash_bits < 100 then
    head ++ [hash_bits / 10 + 0x30, hash_bits % 10 + 0x30]
  else
    head ++ [hash_bits / 100 + 0x30, hash_bits % 100 / 10 + 0x30, hash_bits % 10 + 0x30]

/-- `detail::sha512_t_initialization_vector`: the 512-bit digest of the
derivation message (hashed with the intermediate vector) read back into eight
host-order words. -/
def sha512_t_initialization_vector (hash_bits : Nat) : List Nat :=
  let hash_result := sha2 512 .w64 sha512t_intermediate_iv sha2_64_bit_constants
    (sha512t_message hash_bits)
  (List.range 8).map (fun iv_index =>
    big_endian_to_host .w64
      ((List.range 8).foldl
        (fun iv_value byte_index =>
          iv_value ||| (nth hash_result (iv_index * 8 + byte_index) <<< (byte_index * bits_per_byte)))
        0))

/-! ## Public interface -/

/-- `ctsha::sha224`. -/
def sha224 (message : List Nat) : List Nat :=
  sha2 224 .w32 sha224_initialization_vector sha2_32_bit_constants message

/-- `ctsha::sha256`. -/
def sha256 (message : List Nat) : List Nat :=
  sha2 256 .w32 sha256_initialization_vector sha2_32_bit_constants message

/-- `ctsha::sha384`. -/
def sha384 (message : List Nat) : List Nat :=
  sha2 384 .w64 sha384_initialization_vector sha2_64_bit_constants message

/-- `ctsha::sha512`. -/
def sha512 (message : List Nat) : List Nat :=
  sha2 512 .w64 sha512_initialization_vector sha2_64_bit_constants message

/-- `ctsha::sha512_t`: the `requires (hash_bits != 0 && hash_bits != 384 &&
hash_bits < 512)` clause rejects invalid configurations before any hashing
work; rejection is modelled by `none`. -/
def sha512_t (hash_bits : Nat) (message : List Nat) : Option (List Nat) :=
  if hash_bits ≠ 0 ∧ hash_bits ≠ 384 ∧ hash_bits < 512 then
    some (sha2 hash_bits .w64 (sha512_t_initialization_vector hash_bits) sha2_64_bit_constants
      message)
  else
    none

/-! ## Specification-side helpers (digest rendering, decimal digits) -/

/-- Lower-case hexadecimal digit, as an ASCII code. -/
def hex_digit (n : Nat) : Nat := if n < 10 then 48 + n else 87 + n

/-- ASCII codes of the hexadecimal rendering of a byte sequence (two digits
per byte, most significant digit first). -/
def hex_codes (digest : List Nat) : List Nat :=
  digest.flatMap (fun b => [hex_digit (b / 16), hex_digit (b % 16)])

/-- ASCII codes of a string. -/
def ascii (s : String) : List Nat := s.toList.map Char.toNat

/-- Fueled decimal-digit expansion (most significant digit first, ASCII). -/
def dec_digits_go : Nat → Nat → List Nat
  | 0, _ => []
  | fuel + 1, n => if n < 10 then [n + 0x30] else dec_digits_go fuel (n / 10) ++ [n % 10 + 0x30]

/-- ASCII codes of the decimal digits of `n`, no leading zero. -/
def dec_digits (n : Nat) : List Nat := dec_digits_go (n + 1) n

/-! ## Shape and bound invariants of the SHA-2 pipeline -/

theorem sha2_round_length (W : Width) (v : List Nat) (kt wt : Nat) :
    (sha2_round W v kt wt).length = v.length := by
  unfold sha2_round
  split <;> simp

theorem sha2_rounds_length (W : Width) (l : List (Nat × Nat)) :
    ∀ v : List Nat, (l.foldl (fun v kw => sha2_round W v kw.1 kw.2) v).length = v.length := by
  induction l with
  | nil => intro v; rfl
  | cons kw l ih =>
    intro v
    rw [List.foldl_cons, ih, sha2_round_length]

theorem sha2_process_block_length (W : Width) (constants state block : List Nat) :
    (sha2_process_block W constants state block).length = state.length := by
  unfold sha2_process_block
  rw [List.length_zipWith, sha2_rounds_length]
  omega

theorem sha2_foldl_length (W : Width) (constants : List Nat) :
    ∀ (blocks : List (List Nat)) (state : List Nat),
      (blocks.foldl (sha2_process_block W constants) state).length = state.length := by
  intro blocks
  induction blocks with
  | nil => intro state; rfl
  | cons b bs ih =>
    intro state
    rw [List.foldl_cons, ih, sha2_process_block_length]

theorem sha2_final_state_length (W : Width) (constants initialization_vector message : List Nat) :
    (sha2_final_state W constants initialization_vector message).length =
      initialization_vector.length :=
  sha2_foldl_length W constants (preprocess_message W message) initialization_vector

theorem zipWith_add_mod_bounds (m : Nat) (hm : 0 < m) :
    ∀ (s v : List Nat), ∀ y ∈ s.zipWith (fun si vi => (vi + si) % m) v, y < m := by
  intro s
  induction s with
  | nil =>
    intro v y hy
    simp at hy
  | cons a s ih =>
    intro v y hy
    cases v with
    | nil => simp at hy
    | cons b v =>
      rcases List.mem_cons.mp hy with rfl | hmem
      · exact Nat.mod_lt _ hm
      · exact ih v y hmem

theorem sha2_process_block_bounds (W : Width) (constants state block : List Nat) :
    ∀ y ∈ sha2_process_block W constants state block, y < 2 ^ W.bits := by
  intro y hy
  exact zipWith_add_mod_bounds (2 ^ W.bits) (Nat.pos_pow_of_pos _ (by omega)) state _ y hy

theorem preprocess_message_ne_nil (W : Width) (message : List Nat) :
    preprocess_message W message ≠ [] := by
  unfold preprocess_message
  simp only [List.map_eq_nil_iff, List.range_eq_nil]
  cases W <;> simp [num_blocks, Width.bits, bits_per_byte] <;> omega

theorem sha2_foldl_bounds (W : Width) (constants : List Nat) :
    ∀ (blocks : List (List Nat)) (state : List Nat), blocks ≠ [] →
      ∀ y ∈ blocks.foldl (sha2_process_block W constants) state, y < 2 ^ W.bits := by
  intro blocks
  induction blocks with
  | nil =>
    intro state h
    exact absurd rfl h
  | cons b bs ih =>
    intro state _ y hy
    cases bs with
    | nil => exact sha2_process_block_bounds W constants state b y hy
    | cons b2 bs2 => exact ih _ (by simp) y hy

theorem sha2_final_state_bounds (W : Width) (constants initialization_vector message : List Nat) :
    ∀ y ∈ sha2_final_state W constants initialization_vector message, y < 2 ^ W.bits :=
  sha2_foldl_bounds W constants (preprocess_message W message) initialization_vector
    (preprocess_message_ne_nil W message)

theorem word_bytes_be_length (W : Width) (element : Nat) :
    (word_bytes_be W element).length = W.bits / 8 := by
  simp [word_bytes_be]

theorem to_bytes_be_length (W : Width) (value : List Nat) :
    (to_bytes_be W value).length = value.length * (W.bits / 8) := by
  unfold to_bytes_be
  induction value with
  | nil => simp
  | cons x l ih =>
    rw [List.flatMap_cons, List.length_append, word_bytes_be_length, ih, List.length_cons]
    ring

theorem sha512_t_initialization_vector_length (hash_bits : Nat) :
    (sha512_t_initialization_vector hash_bits).length = 8 := by
  simp [sha512_t_initialization_vector]

/-! ## Claim theorems -/

/-- C1: `sha256` applied to the three-byte message "abc" returns the 32-byte
digest whose hexadecimal representation is
`ba7816bf8f01cfea414140de5dae2223b00361a396177a9cb410ff61f20015ad`. -/
theorem sha256_abc :
    (sha256 [0x61, 0x62, 0x63]).length = 32 ∧
      hex_codes (sha256 [0x61, 0x62, 0x63]) =
        ascii "ba7816bf8f01cfea414140de5dae2223b00361a396177a9cb410ff61f20015ad" := by
  constructor
  · decide
  · decide

/-- C9 (counterexample): the hexadecimal representation of `sha1("abc")` is
not the spec's 39-digit string `a9993e364706816aba3e25717850c26c9cd0d89` (a
20-byte digest renders as 40 hexadecimal digits; the spec dropped the final
`d`). -/
theorem sha1_abc_spec_string_wrong :
    hex_codes (sha1 [0x61, 0x62, 0x63]) ≠
      ascii "a9993e364706816aba3e25717850c26c9cd0d89" := by
  decide

/-- C9 (amended): `sha1` applied to the three-byte message "abc" returns the
20-byte digest whose hexadecimal representation is
`a9993e364706816aba3e25717850c26c9cd0d89d`. -/
theorem sha1_abc :
    (sha1 [0x61, 0x62, 0x63]).length = 20 ∧
      hex_codes (sha1 [0x61, 0x62, 0x63]) =
        ascii "a9993e364706816aba3e25717850c26c9cd0d89d" := by
  constructor
  · decide
  · decide

/-- C7: the derived 32-bit SHA-2 round-constant table has `0x428a2f98` (the
first 32 fractional bits of the cube root of the first prime 2) at index 0,
and `nth_prime` at 0..4 gives 2, 3, 5, 7, 11. -/
theorem round_constant_and_primes :
    nth sha2_32_bit_constants 0 = 0x428a2f98 ∧
      sha2_constant .w32 2 3 = 0x428a2f98 ∧
      nth_prime 0 = 2 ∧ nth_prime 1 = 3 ∧ nth_prime 2 = 5 ∧
      nth_prime 3 = 7 ∧ nth_prime 4 = 11 := by
  decide

/-- C10: the 80 SHA-1 round constants are constant on each 20-round band and
the four band values are `0x5a827999`, `0x6ed9eba1`, `0x8f1bbcdc`,
`0xca62c1d6`, obtained as the most significant 32 bits (integer plus
fractional part) of the square roots of 2, 3, 5 and 10. -/
theorem sha1_constants_bands (t : Nat) (ht : t < 80) :
    nth sha1_constants t = nth sha1_constants (20 * (t / 20)) ∧
      nth sha1_constants 0 = 0x5a827999 ∧ nth sha1_constants 20 = 0x6ed9eba1 ∧
      nth sha1_constants 40 = 0x8f1bbcdc ∧ nth sha1_constants 60 = 0xca62c1d6 ∧
      iroot (2 * 2 ^ 60) 2 % 2 ^ 32 = 0x5a827999 ∧
      iroot (3 * 2 ^ 60) 2 % 2 ^ 32 = 0x6ed9eba1 ∧
      iroot (5 * 2 ^ 60) 2 % 2 ^ 32 = 0x8f1bbcdc ∧
      iroot (10 * 2 ^ 60) 2 % 2 ^ 32 = 0xca62c1d6 := by
  revert ht
  revert t
  decide

/-- C10 witness at round 37 (band 1). -/
theorem sha1_constants_bands_witness :
    nth sha1_constants 37 = nth sha1_constants (20 * (37 / 20)) ∧
      nth sha1_constants 0 = 0x5a827999 ∧ nth sha1_constants 20 = 0x6ed9eba1 ∧
      nth sha1_constants 40 = 0x8f1bbcdc ∧ nth sha1_constants 60 = 0xca62c1d6 ∧
      iroot (2 * 2 ^ 60) 2 % 2 ^ 32 = 0x5a827999 ∧
      iroot (3 * 2 ^ 60) 2 % 2 ^ 32 = 0x6ed9eba1 ∧
      iroot (5 * 2 ^ 60) 2 % 2 ^ 32 = 0x8f1bbcdc ∧
      iroot (10 * 2 ^ 60) 2 % 2 ^ 32 = 0xca62c1d6 :=
  sha1_constants_bands 37 (by decide)

/-- C3 (counterexample): the SHA-224 initialization vector word at index 0 is
NOT `nth_root_fractional_bits(nth_prime(8), 2, 32)` — the width-32 derivation
claimed by the spec: the source derives it at width 64 and keeps the low 32
bits (`0xc1059ed8`), while the first 32 fractional bits of `sqrt 23` are
`0xcbbb9d5d`. -/
theorem sha224_iv_not_width_32 :
    nth sha224_initialization_vector 0 ≠ sha2_constant .w32 (nth_prime 8) 2 := by
  decide

/-- C3 (amended): for every index `i < 8`, the SHA-224 initialization vector
word is the low 32 bits of the width-64 derivation
`nth_root_fractional_bits(nth_prime(i+8), 2, 64) mod 2^32`, and the SHA-256,
SHA-384 and SHA-512 initialization vector words are
`nth_root_fractional_bits(nth_prime(i or i+8), 2, W)` at their own word
widths. -/
theorem initialization_vectors_derivation (i : Nat) (hi : i < 8) :
    nth sha224_initialization_vector i = sha2_constant .w64 (nth_prime (i + 8)) 2 % 2 ^ 32 ∧
      nth sha256_initialization_vector i = sha2_constant .w32 (nth_prime i) 2 ∧
      nth sha384_initialization_vector i = sha2_constant .w64 (nth_prime (i + 8)) 2 ∧
      nth sha512_initialization_vector i = sha2_constant .w64 (nth_prime i) 2 := by
  revert hi
  revert i
  decide

/-- C3 witness at index 0. -/
theorem initialization_vectors_derivation_witness :
    nth sha224_initialization_vector 0 = sha2_constant .w64 (nth_prime (0 + 8)) 2 % 2 ^ 32 ∧
      nth sha256_initialization_vector 0 = sha2_constant .w32 (nth_prime 0) 2 ∧
      nth sha384_initialization_vector 0 = sha2_constant .w64 (nth_prime (0 + 8)) 2 ∧
      nth sha512_initialization_vector 0 = sha2_constant .w64 (nth_prime 0) 2 :=
  initialization_vectors_derivation 0 (by decide)

/-- `detail::sha2` always returns the leading `⌈digest_bits/8⌉` bytes of the
serialized final state, as long as that is at most the state size. -/
theorem sha2_as_take (digest_bits : Nat) (W : Width)
    (initialization_vector constants message : List Nat)
    (hiv : initialization_vector.length = 8) :
    sha2 digest_bits W initialization_vector constants message =
      (to_bytes_be W (sha2_final_state W constants initialization_vector message)).take
        ((digest_bits + 7) / 8) := by
  unfold sha2
  by_cases hb : (digest_bits + 7) / 8 < 8 * (W.bits / 8)
  · rw [if_pos hb]
  · rw [if_neg hb, eq_comm]
    apply List.take_of_length_le
    rw [to_bytes_be_length, sha2_final_state_length, hiv]
    omega

/-- C5: for every message, the `sha512_t 224` digest is the first 28 bytes and
the `sha512_t 256` digest the first 32 bytes of the full 64-byte big-endian
serialization of the final state produced by the same SHA-512 pipeline run
with the corresponding bootstrap initialization vector (truncation only, no
re-derivation). -/
theorem sha512_t_digest_truncation (message : List Nat) :
    sha512_t 224 message =
      some ((sha2 512 .w64 (sha512_t_initialization_vector 224) sha2_64_bit_constants
        message).take 28) ∧
    sha512_t 256 message =
      some ((sha2 512 .w64 (sha512_t_initialization_vector 256) sha2_64_bit_constants
        message).take 32) ∧
    (sha2 512 .w64 (sha512_t_initialization_vector 224) sha2_64_bit_constants message).length
      = 64 ∧
    (sha2 512 .w64 (sha512_t_initialization_vector 256) sha2_64_bit_constants message).length
      = 64 := by
  have hlen : ∀ hash_bits : Nat,
      (sha2 512 .w64 (sha512_t_initialization_vector hash_bits) sha2_64_bit_constants
        message).length = 64 := by
    intro hash_bits
    rw [sha2_as_take 512 .w64 _ _ _ (sha512_t_initialization_vector_length hash_bits),
      List.length_take, to_bytes_be_length, sha2_final_state_length,
      sha512_t_initialization_vector_length]
    decide
  refine ⟨?_, ?_, hlen 224, hlen 256⟩
  · rw [sha512_t, if_pos (by norm_num),
      sha2_as_take 224 .w64 _ _ _ (sha512_t_initialization_vector_length 224),
      sha2_as_take 512 .w64 _ _ _ (sha512_t_initialization_vector_length 224),
      List.take_take]
    norm_num
  · rw [sha512_t, if_pos (by norm_num),
      sha2_as_take 256 .w64 _ _ _ (sha512_t_initialization_vector_length 256),
      sha2_as_take 512 .w64 _ _ _ (sha512_t_initialization_vector_length 256),
      List.take_take]
    norm_num

/-- C8: a `sha512_t` request with `bits = 0`, `bits = 384` or `bits ≥ 512` is
rejected at call construction and never produces a digest; every accepted
configuration runs to completion and produces a digest of `⌈bits/8⌉` bytes. -/
theorem sha512_t_configuration (hash_bits : Nat) (message : List Nat) :
    (hash_bits = 0 ∨ hash_bits = 384 ∨ 512 ≤ hash_bits →
      sha512_t hash_bits message = none) ∧
    (hash_bits ≠ 0 → hash_bits ≠ 384 → hash_bits < 512 →
      ∃ d, sha512_t hash_bits message = some d ∧ d.length = (hash_bits + 7) / 8) := by
  constructor
  · intro h
    rw [sha512_t, if_neg (by omega)]
  · intro h1 h2 h3
    rw [sha512_t, if_pos ⟨h1, h2, h3⟩]
    refine ⟨_, rfl, ?_⟩
    rw [sha2_as_take hash_bits .w64 _ _ _ (sha512_t_initialization_vector_length hash_bits),
      List.length_take, to_bytes_be_length, sha2_final_state_length,
      sha512_t_initialization_vector_length]
    have : (8 : Nat) * (Width.bits .w64 / 8) = 64 := by decide
    omega

/-! ## Structure of the padded message (claim C2) -/

/-- `std::copy` into the middle of a buffer, written as appended segments. -/
theorem store_bytes_append (vs : List Nat) :
    ∀ (front rest : List Nat), vs.length ≤ rest.length →
      store_bytes (front ++ rest) front.length vs = front ++ vs ++ rest.drop vs.length := by
  induction vs with
  | nil =>
    intro front rest _
    simp [store_bytes]
  | cons v vs ih =>
    intro front rest hle
    cases rest with
    | nil => simp at hle
    | cons c rest =>
      show store_bytes ((front ++ c :: rest).set front.length v) (front.length + 1) vs = _
      have hset : (front ++ c :: rest).set front.length v = front ++ v :: rest := by
        induction front with
        | nil => rfl
        | cons a front ihf => simpa [List.set] using ihf
      rw [hset]
      have : front ++ v :: rest = (front ++ [v]) ++ rest := by simp
      rw [this]
      have hlen : (front ++ [v]).length = front.length + 1 := by simp
      have := ih (front ++ [v]) rest (by simpa using hle)
      rw [hlen] at this
      rw [this]
      simp

/-- Writing a single byte at the boundary between two appended segments. -/
theorem set_at_append (front : List Nat) (v c : Nat) (rest : List Nat) :
    (front ++ c :: rest).set front.length v = front ++ v :: rest := by
  induction front with
  | nil => rfl
  | cons a front ihf => simpa [List.set] using ihf

/-- The padded buffer, decomposed: message bytes, the byte `0x80`, zero
padding, and the eight length bytes at the very end. -/
theorem padded_bytes_structure (W : Width) (message : List Nat)
    (h9 : message.length + 9 ≤ num_blocks W message.length * (16 * (W.bits / 8))) :
    padded_bytes W message =
      message ++ 0x80 ::
        (List.replicate
            (num_blocks W message.length * (16 * (W.bits / 8)) - message.length - 9) 0 ++
          word_bytes_be .w64 (message.length * bits_per_byte % 2 ^ 64)) := by
  simp only [padded_bytes]
  have hsize_len : (word_bytes_be .w64 (message.length * bits_per_byte % 2 ^ 64)).length = 8 := by
    rw [word_bytes_be_length]
    rfl
  -- step 1: copying the message into the zero buffer
  have h1 : store_bytes
      (List.replicate (num_blocks W message.length * (16 * (W.bits / 8))) 0) 0 message =
      message ++ List.replicate
        (num_blocks W message.length * (16 * (W.bits / 8)) - message.length) 0 := by
    have := store_bytes_append message []
      (List.replicate (num_blocks W message.length * (16 * (W.bits / 8))) 0)
      (by simp; omega)
    simpa [List.drop_replicate] using this
  rw [h1]
  clear h1
  -- step 2: the 0x80 byte lands at the head of the zero segment
  have hz : num_blocks W message.length * (16 * (W.bits / 8)) - message.length =
      (num_blocks W message.length * (16 * (W.bits / 8)) - message.length - 1) + 1 := by omega
  rw [hz, List.replicate_succ, set_at_append]
  -- step 3: split off the final eight bytes of the zero segment
  have hz2 : num_blocks W message.length * (16 * (W.bits / 8)) - message.length - 1 =
      (num_blocks W message.length * (16 * (W.bits / 8)) - message.length - 9) + 8 := by omega
  rw [hz2, List.replicate_add]
  -- step 4: the length bytes overwrite exactly those eight zero bytes
  have hfront : (message ++ 0x80 ::
      (List.replicate (num_blocks W message.length * (16 * (W.bits / 8)) - message.length - 9) 0)).length
      = num_blocks W message.length * (16 * (W.bits / 8)) - 8 := by
    simp
    omega
  have hlen2 : (message ++ 0x80 ::
      (List.replicate (num_blocks W message.length * (16 * (W.bits / 8)) - message.length - 9) 0 ++
        List.replicate 8 0)).length = num_blocks W message.length * (16 * (W.bits / 8)) := by
    simp
    omega
  have hassoc : message ++ 0x80 ::
      (List.replicate (num_blocks W message.length * (16 * (W.bits / 8)) - message.length - 9) 0 ++
        List.replicate 8 0) =
      (message ++ 0x80 ::
        List.replicate (num_blocks W message.length * (16 * (W.bits / 8)) - message.length - 9) 0) ++
        List.replicate 8 0 := by
    simp
  rw [hlen2, hsize_len, hassoc]
  have hidx : num_blocks W message.length * (16 * (W.bits / 8)) - 8 =
      (message ++ 0x80 ::
        List.replicate (num_blocks W message.length * (16 * (W.bits / 8)) - message.length - 9) 0).length := by
    rw [hfront]
  rw [hidx, store_bytes_append _ _ (List.replicate 8 0)
    (by simp [word_bytes_be_length, Width.bits])]
  simp [word_bytes_be_length, Width.bits]

/-- C2: for every message and word width, the padded buffer is the message,
then the byte `0x80`, then zero bytes, with the last `2·W/8` bytes holding the
message bit length as a big-endian integer of which only the low 64 bits are
populated; the padded length is the smallest multiple of the block size
`16·W/8` bytes that can hold message + 1 bit + length field. -/
theorem message_padding (W : Width) (message : List Nat)
    (hbits : message.length * bits_per_byte < 2 ^ 64) :
    padded_bytes W message =
      message ++ 0x80 ::
        (List.replicate
            (num_blocks W message.length * (16 * (W.bits / 8)) - message.length - 9) 0 ++
          word_bytes_be .w64 (message.length * bits_per_byte)) ∧
    (padded_bytes W message).length = num_blocks W message.length * (16 * (W.bits / 8)) ∧
    (padded_bytes W message).drop
        (num_blocks W message.length * (16 * (W.bits / 8)) - 2 * W.bits / 8) =
      List.replicate (2 * W.bits / 8 - 8) 0 ++
        word_bytes_be .w64 (message.length * bits_per_byte) ∧
    message.length * bits_per_byte + 1 + 2 * W.bits ≤
      16 * W.bits * num_blocks W message.length ∧
    16 * W.bits * (num_blocks W message.length - 1) <
      message.length * bits_per_byte + 1 + 2 * W.bits := by
  have hmod : message.length * bits_per_byte % 2 ^ 64 = message.length * bits_per_byte :=
    Nat.mod_eq_of_lt hbits
  cases W with
  | w32 =>
    have h9 : message.length + 9 ≤ num_blocks .w32 message.length * (16 * (Width.bits .w32 / 8)) := by
      simp [num_blocks, Width.bits, bits_per_byte]
      omega
    have hstruct := padded_bytes_structure .w32 message h9
    rw [hmod] at hstruct
    refine ⟨hstruct, ?_, ?_, ?_, ?_⟩
    · rw [hstruct]
      simp [word_bytes_be_length, Width.bits] at h9 ⊢
      omega
    · rw [hstruct]
      have hassoc : message ++ 0x80 ::
          (List.replicate
              (num_blocks .w32 message.length * (16 * (Width.bits .w32 / 8)) - message.length - 9) 0 ++
            word_bytes_be .w64 (message.length * bits_per_byte)) =
          (message ++ 0x80 ::
            List.replicate
              (num_blocks .w32 message.length * (16 * (Width.bits .w32 / 8)) - message.length - 9) 0) ++
            word_bytes_be .w64 (message.length * bits_per_byte) := by
        simp
      rw [hassoc]
      have hidx : num_blocks .w32 message.length * (16 * (Width.bits .w32 / 8)) -
          2 * Width.bits .w32 / 8 =
          (message ++ 0x80 ::
            List.replicate
              (num_blocks .w32 message.length * (16 * (Width.bits .w32 / 8)) - message.length - 9)
              0).length := by
        simp [Width.bits] at h9 ⊢
        omega
      rw [hidx, List.drop_left]
      simp [Width.bits]
    · simp [num_blocks, Width.bits, bits_per_byte]
      omega
    · simp [num_blocks, Width.bits, bits_per_byte]
      omega
  | w64 =>
    have h9 : message.length + 17 ≤
        num_blocks .w64 message.length * (16 * (Width.bits .w64 / 8)) := by
      simp [num_blocks, Width.bits, bits_per_byte]
      omega
    have hstruct := padded_bytes_structure .w64 message (by omega)
    rw [hmod] at hstruct
    refine ⟨hstruct, ?_, ?_, ?_, ?_⟩
    · rw [hstruct]
      simp [word_bytes_be_length, Width.bits] at h9 ⊢
      omega
    · rw [hstruct]
      have hsplit : num_blocks .w64 message.length * (16 * (Width.bits .w64 / 8)) -
          message.length - 9 =
          (num_blocks .w64 message.length * (16 * (Width.bits .w64 / 8)) - message.length - 17)
            + 8 := by
        omega
      rw [hsplit, List.replicate_add]
      have hassoc : message ++ 0x80 ::
          ((List.replicate
              (num_blocks .w64 message.length * (16 * (Width.bits .w64 / 8)) - message.length - 17)
              0 ++ List.replicate 8 0) ++
            word_bytes_be .w64 (message.length * bits_per_byte)) =
          (message ++ 0x80 ::
            List.replicate
              (num_blocks .w64 message.length * (16 * (Width.bits .w64 / 8)) - message.length - 17)
              0) ++
            (List.replicate 8 0 ++ word_bytes_be .w64 (message.length * bits_per_byte)) := by
        simp
      rw [hassoc]
      have hidx : num_blocks .w64 message.length * (16 * (Width.bits .w64 / 8)) -
          2 * Width.bits .w64 / 8 =
          (message ++ 0x80 ::
            List.replicate
              (num_blocks .w64 message.length * (16 * (Width.bits .w64 / 8)) - message.length - 17)
              0).length := by
        simp [Width.bits] at h9 ⊢
        omega
      rw [hidx, List.drop_left]
      simp [Width.bits]
    · simp [num_blocks, Width.bits, bits_per_byte]
      omega
    · simp [num_blocks, Width.bits, bits_per_byte]
      omega

/-- C2 witness at width 32 on the three-byte message "abc" (padded into one
64-byte block: 3 message bytes, `0x80`, 52 zero bytes, 8 length bytes). -/
theorem message_padding_witness :
    padded_bytes .w32 [0x61, 0x62, 0x63] =
      [0x61, 0x62, 0x63] ++ 0x80 ::
        (List.replicate
            (num_blocks .w32 ([0x61, 0x62, 0x63] : List Nat).length *
                (16 * (Width.bits .w32 / 8)) - ([0x61, 0x62, 0x63] : List Nat).length - 9) 0 ++
          word_bytes_be .w64 (([0x61, 0x62, 0x63] : List Nat).length * bits_per_byte)) ∧
    (padded_bytes .w32 [0x61, 0x62, 0x63]).length =
      num_blocks .w32 ([0x61, 0x62, 0x63] : List Nat).length * (16 * (Width.bits .w32 / 8)) ∧
    (padded_bytes .w32 [0x61, 0x62, 0x63]).drop
        (num_blocks .w32 ([0x61, 0x62, 0x63] : List Nat).length * (16 * (Width.bits .w32 / 8)) -
          2 * Width.bits .w32 / 8) =
      List.replicate (2 * Width.bits .w32 / 8 - 8) 0 ++
        word_bytes_be .w64 (([0x61, 0x62, 0x63] : List Nat).length * bits_per_byte) ∧
    ([0x61, 0x62, 0x63] : List Nat).length * bits_per_byte + 1 + 2 * Width.bits .w32 ≤
      16 * Width.bits .w32 * num_blocks .w32 ([0x61, 0x62, 0x63] : List Nat).length ∧
    16 * Width.bits .w32 * (num_blocks .w32 ([0x61, 0x62, 0x63] : List Nat).length - 1) <
      ([0x61, 0x62, 0x63] : List Nat).length * bits_per_byte + 1 + 2 * Width.bits .w32 :=
  message_padding .w32 [0x61, 0x62, 0x63] (by decide)

/-! ## Byte-level inversion of the serialization (claim C4) -/

/-- The byte-extraction expression of `to_bytes`/`byte_swap` in
division/remainder form. -/
theorem and_shift_byte (x s : Nat) : (x &&& (0xff <<< s)) >>> s = x / 2 ^ s % 256 := by
  apply Nat.eq_of_testBit_eq
  intro j
  rw [show (256 : Nat) = 2 ^ 8 from rfl, show (255 : Nat) = 2 ^ 8 - 1 from rfl,
    ← Nat.shiftRight_eq_div_pow]
  simp only [Nat.testBit_mod_two_pow, Nat.testBit_and, Nat.testBit_shiftRight,
    Nat.testBit_shiftLeft, Nat.testBit_two_pow_sub_one, ge_iff_le, Nat.le_add_right,
    Nat.add_sub_cancel_left, decide_True, Bool.true_and]
  exact Bool.and_comm _ _

/-- Bitwise or of a low part and a disjoint shifted part is addition. -/
theorem lor_small_shift (a b n : Nat) (ha : a < 2 ^ n) : a ||| b <<< n = a + b * 2 ^ n := by
  rw [Nat.shiftLeft_eq, Nat.lor_comm, Nat.mul_comm b (2 ^ n), ← Nat.mul_add_lt_is_or ha b]
  omega

/-- Bitwise or of an aligned high part and a disjoint low part is addition. -/
theorem lor_high (i t c : Nat) (hc : c < 2 ^ i) : 2 ^ i * t ||| c = 2 ^ i * t + c :=
  (Nat.mul_add_lt_is_or hc t).symm

/-- `word_bytes_be` at width 64, written as the eight bytes of the word. -/
theorem word_bytes_be_w64 (x : Nat) :
    word_bytes_be .w64 x =
      [x / 2 ^ 56 % 256, x / 2 ^ 48 % 256, x / 2 ^ 40 % 256, x / 2 ^ 32 % 256,
        x / 2 ^ 24 % 256, x / 2 ^ 16 % 256, x / 2 ^ 8 % 256, x / 2 ^ 0 % 256] := by
  unfold word_bytes_be
  rw [show List.range (Width.bits .w64 / 8) = [0, 1, 2, 3, 4, 5, 6, 7] from rfl]
  simp only [List.map_cons, List.map_nil, and_shift_byte]
  norm_num [Width.bits, bits_per_byte]

/-- Little-endian reassembly of eight bytes followed by `byte_swap` restores
the big-endian weighted sum of those bytes. -/
theorem bytes_roundtrip (e0 e1 e2 e3 e4 e5 e6 e7 : Nat)
    (h0 : e0 < 256) (h1 : e1 < 256) (h2 : e2 < 256) (h3 : e3 < 256)
    (h4 : e4 < 256) (h5 : e5 < 256) (h6 : e6 < 256) (h7 : e7 < 256) :
    big_endian_to_host .w64 (e0 ||| e1 <<< 8 ||| e2 <<< 16 ||| e3 <<< 24 ||| e4 <<< 32 ||| e5 <<< 40 ||| e6 <<< 48 ||| e7 <<< 56) =
      e7 + e6 * 2 ^ 8 + e5 * 2 ^ 16 + e4 * 2 ^ 24 + e3 * 2 ^ 32 + e2 * 2 ^ 40 + e1 * 2 ^ 48 + e0 * 2 ^ 56 := by
  show byte_swap .w64 _ = _
  rw [lor_small_shift (e0) e1 8 (by omega)]
  rw [lor_small_shift (e0 + e1 * 2 ^ 8) e2 16 (by omega)]
  rw [lor_small_shift (e0 + e1 * 2 ^ 8 + e2 * 2 ^ 16) e3 24 (by omega)]
  rw [lor_small_shift (e0 + e1 * 2 ^ 8 + e2 * 2 ^ 16 + e3 * 2 ^ 24) e4 32 (by omega)]
  rw [lor_small_shift (e0 + e1 * 2 ^ 8 + e2 * 2 ^ 16 + e3 * 2 ^ 24 + e4 * 2 ^ 32) e5 40 (by omega)]
  rw [lor_small_shift (e0 + e1 * 2 ^ 8 + e2 * 2 ^ 16 + e3 * 2 ^ 24 + e4 * 2 ^ 32 + e5 * 2 ^ 40) e6 48 (by omega)]
  rw [lor_small_shift (e0 + e1 * 2 ^ 8 + e2 * 2 ^ 16 + e3 * 2 ^ 24 + e4 * 2 ^ 32 + e5 * 2 ^ 40 + e6 * 2 ^ 48) e7 56 (by omega)]
  generalize hy : e0 + e1 * 2 ^ 8 + e2 * 2 ^ 16 + e3 * 2 ^ 24 + e4 * 2 ^ 32 + e5 * 2 ^ 40 + e6 * 2 ^ 48 + e7 * 2 ^ 56 = y
  unfold byte_swap
  rw [show List.range (Width.bits .w64 / 8) = [0, 1, 2, 3, 4, 5, 6, 7] from rfl]
  simp only [List.foldl_cons, List.foldl_nil, and_shift_byte]
  simp only [Width.bits, bits_per_byte, Nat.reduceMul, Nat.reduceSub, Nat.reduceDiv,
    Nat.reduceAdd, Nat.zero_or, Nat.shiftLeft_eq]
  rw [show y / 2 ^ 0 % 256 = e0 from by omega]
  rw [show y / 2 ^ 8 % 256 = e1 from by omega]
  rw [show y / 2 ^ 16 % 256 = e2 from by omega]
  rw [show y / 2 ^ 24 % 256 = e3 from by omega]
  rw [show y / 2 ^ 32 % 256 = e4 from by omega]
  rw [show y / 2 ^ 40 % 256 = e5 from by omega]
  rw [show y / 2 ^ 48 % 256 = e6 from by omega]
  rw [show y / 2 ^ 56 % 256 = e7 from by omega]
  rw [show e0 * 2 ^ 56 = 2 ^ 56 * (e0) from by ring]
  rw [lor_high 56 (e0) (e1 * 2 ^ 48) (by omega)]
  rw [show 2 ^ 56 * (e0) + e1 * 2 ^ 48 = 2 ^ 48 * (2 ^ 8 * (e0) + e1) from by ring]
  rw [lor_high 48 (2 ^ 8 * (e0) + e1) (e2 * 2 ^ 40) (by omega)]
  rw [show 2 ^ 48 * (2 ^ 8 * (e0) + e1) + e2 * 2 ^ 40 = 2 ^ 40 * (2 ^ 8 * (2 ^ 8 * (e0) + e1) + e2) from by ring]
  rw [lor_high 40 (2 ^ 8 * (2 ^ 8 * (e0) + e1) + e2) (e3 * 2 ^ 32) (by omega)]
  rw [show 2 ^ 40 * (2 ^ 8 * (2 ^ 8 * (e0) + e1) + e2) + e3 * 2 ^ 32 = 2 ^ 32 * (2 ^ 8 * (2 ^ 8 * (2 ^ 8 * (e0) + e1) + e2) + e3) from by ring]
  rw [lor_high 32 (2 ^ 8 * (2 ^ 8 * (2 ^ 8 * (e0) + e1) + e2) + e3) (e4 * 2 ^ 24) (by omega)]
  rw [show 2 ^ 32 * (2 ^ 8 * (2 ^ 8 * (2 ^ 8 * (e0) + e1) + e2) + e3) + e4 * 2 ^ 24 = 2 ^ 24 * (2 ^ 8 * (2 ^ 8 * (2 ^ 8 * (2 ^ 8 * (e0) + e1) + e2) + e3) + e4) from by ring]
  rw [lor_high 24 (2 ^ 8 * (2 ^ 8 * (2 ^ 8 * (2 ^ 8 * (e0) + e1) + e2) + e3) + e4) (e5 * 2 ^ 16) (by omega)]
  rw [show 2 ^ 24 * (2 ^ 8 * (2 ^ 8 * (2 ^ 8 * (2 ^ 8 * (e0) + e1) + e2) + e3) + e4) + e5 * 2 ^ 16 = 2 ^ 16 * (2 ^ 8 * (2 ^ 8 * (2 ^ 8 * (2 ^ 8 * (2 ^ 8 * (e0) + e1) + e2) + e3) + e4) + e5) from by ring]
  rw [lor_high 16 (2 ^ 8 * (2 ^ 8 * (2 ^ 8 * (2 ^ 8 * (2 ^ 8 * (e0) + e1) + e2) + e3) + e4) + e5) (e6 * 2 ^ 8) (by omega)]
  rw [show 2 ^ 16 * (2 ^ 8 * (2 ^ 8 * (2 ^ 8 * (2 ^ 8 * (2 ^ 8 * (e0) + e1) + e2) + e3) + e4) + e5) + e6 * 2 ^ 8 = 2 ^ 8 * (2 ^ 8 * (2 ^ 8 * (2 ^ 8 * (2 ^ 8 * (2 ^ 8 * (2 ^ 8 * (e0) + e1) + e2) + e3) + e4) + e5) + e6) from by ring]
  rw [lor_high 8 (2 ^ 8 * (2 ^ 8 * (2 ^ 8 * (2 ^ 8 * (2 ^ 8 * (2 ^ 8 * (e0) + e1) + e2) + e3) + e4) + e5) + e6) (e7 * 2 ^ 0) (by omega)]
  omega

/-- Disassembling a 64-bit word into big-endian bytes, reassembling the bytes
in memory order and converting to host order restores the word. -/
theorem word_roundtrip (x : Nat) (hx : x < 2 ^ 64) :
    big_endian_to_host .w64
      (x / 2 ^ 56 % 256 ||| (x / 2 ^ 48 % 256) <<< 8 ||| (x / 2 ^ 40 % 256) <<< 16 |||
        (x / 2 ^ 32 % 256) <<< 24 ||| (x / 2 ^ 24 % 256) <<< 32 ||| (x / 2 ^ 16 % 256) <<< 40 |||
        (x / 2 ^ 8 % 256) <<< 48 ||| (x / 2 ^ 0 % 256) <<< 56) = x := by
  rw [bytes_roundtrip _ _ _ _ _ _ _ _
    (by omega) (by omega) (by omega) (by omega) (by omega) (by omega) (by omega) (by omega)]
  omega

/-- `word_roundtrip` with the powers of two written as numerals (the form the
simplifier produces). -/
theorem word_roundtrip_lit (x : Nat) (hx : x < 2 ^ 64) :
    big_endian_to_host .w64
      (x / 72057594037927936 % 256 ||| (x / 281474976710656 % 256) <<< 8 |||
        (x / 1099511627776 % 256) <<< 16 ||| (x / 4294967296 % 256) <<< 24 |||
        (x / 16777216 % 256) <<< 32 ||| (x / 65536 % 256) <<< 40 |||
        (x / 256 % 256) <<< 48 ||| (x % 256) <<< 56) = x := by
  have h := word_roundtrip x hx
  norm_num at h
  exact h

/-- Every length-8 list is a literal eight-element list. -/
theorem exists_eight (l : List Nat) (hlen8 : l.length = 8) :
    ∃ w0 w1 w2 w3 w4 w5 w6 w7, l = [w0, w1, w2, w3, w4, w5, w6, w7] := by
  rcases l with
    _ | ⟨w0, _ | ⟨w1, _ | ⟨w2, _ | ⟨w3, _ | ⟨w4, _ | ⟨w5, _ | ⟨w6, _ | ⟨w7, _ | ⟨w8, rest⟩⟩⟩⟩⟩⟩⟩⟩⟩ <;>
    simp at hlen8
  exact ⟨w0, w1, w2, w3, w4, w5, w6, w7, rfl⟩

theorem sha512t_intermediate_iv_length : sha512t_intermediate_iv.length = 8 := by
  simp [sha512t_intermediate_iv, sha512_initialization_vector]

/-- A 512-bit digest request serializes the final state without truncation. -/
theorem sha2_512_full (initialization_vector constants message : List Nat)
    (hiv : initialization_vector.length = 8) :
    sha2 512 .w64 initialization_vector constants message =
      to_bytes_be .w64 (sha2_final_state .w64 constants initialization_vector message) := by
  rw [sha2_as_take 512 .w64 _ _ _ hiv]
  apply List.take_of_length_le
  rw [to_bytes_be_length, sha2_final_state_length, hiv]
  decide

/-- C4: for every valid truncation length, the SHA-512/t initialization vector
is exactly the 8-word state produced by running the 64-bit SHA-2 compression
pipeline, with the standard round constants and the `0xa5`-xored intermediate
vector, over the ASCII message `"SHA-512/"` followed by the decimal digits of
`hash_bits` (no leading zero), with no truncation at this step. -/
theorem sha512_t_iv_bootstrap (hash_bits : Nat) (hne0 : hash_bits ≠ 0)
    (hne384 : hash_bits ≠ 384) (hlt : hash_bits < 512) :
    sha512_t_initialization_vector hash_bits =
      sha2_final_state .w64 sha2_64_bit_constants sha512t_intermediate_iv
        (sha512t_message hash_bits) ∧
    sha512t_intermediate_iv =
      sha512_initialization_vector.map (fun entry => entry ^^^ 0xa5a5a5a5a5a5a5a5) ∧
    sha512t_message hash_bits =
      [0x53, 0x48, 0x41, 0x2d, 0x35, 0x31, 0x32, 0x2f] ++ dec_digits hash_bits := by
  refine ⟨?_, rfl, ?_⟩
  · unfold sha512_t_initialization_vector
    rw [sha2_512_full _ _ _ sha512t_intermediate_iv_length]
    have hlen := sha2_final_state_length .w64 sha2_64_bit_constants sha512t_intermediate_iv
      (sha512t_message hash_bits)
    rw [sha512t_intermediate_iv_length] at hlen
    have hbound := sha2_final_state_bounds .w64 sha2_64_bit_constants sha512t_intermediate_iv
      (sha512t_message hash_bits)
    obtain ⟨s0, s1, s2, s3, s4, s5, s6, s7, hfs⟩ := exists_eight _ hlen
    rw [hfs]
    rw [hfs] at hbound
    simp only [show (2 : Nat) ^ Width.bits .w64 = 2 ^ 64 from rfl] at hbound
    have hb0 : s0 < 2 ^ 64 := hbound s0 (by simp)
    have hb1 : s1 < 2 ^ 64 := hbound s1 (by simp)
    have hb2 : s2 < 2 ^ 64 := hbound s2 (by simp)
    have hb3 : s3 < 2 ^ 64 := hbound s3 (by simp)
    have hb4 : s4 < 2 ^ 64 := hbound s4 (by simp)
    have hb5 : s5 < 2 ^ 64 := hbound s5 (by simp)
    have hb6 : s6 < 2 ^ 64 := hbound s6 (by simp)
    have hb7 : s7 < 2 ^ 64 := hbound s7 (by simp)
    simp only [show List.range 8 = [0, 1, 2, 3, 4, 5, 6, 7] from rfl, List.map_cons,
      List.map_nil, List.foldl_cons, List.foldl_nil, to_bytes_be, List.flatMap_cons,
      List.flatMap_nil, word_bytes_be_w64, List.append_nil]
    simp [nth, bits_per_byte]
    exact ⟨word_roundtrip_lit s0 hb0, word_roundtrip_lit s1 hb1, word_roundtrip_lit s2 hb2,
      word_roundtrip_lit s3 hb3, word_roundtrip_lit s4 hb4, word_roundtrip_lit s5 hb5,
      word_roundtrip_lit s6 hb6, word_roundtrip_lit s7 hb7⟩
  · have hall : ∀ u : Nat, u < 512 → u ≠ 0 →
        sha512t_message u = [0x53, 0x48, 0x41, 0x2d, 0x35, 0x31, 0x32, 0x2f] ++ dec_digits u := by
      decide
    exact hall hash_bits hlt hne0

/-- C4 witness at truncation length 256. -/
theorem sha512_t_iv_bootstrap_witness :
    sha512_t_initialization_vector 256 =
      sha2_final_state .w64 sha2_64_bit_constants sha512t_intermediate_iv
        (sha512t_message 256) ∧
    sha512t_intermediate_iv =
      sha512_initialization_vector.map (fun entry => entry ^^^ 0xa5a5a5a5a5a5a5a5) ∧
    sha512t_message 256 =
      [0x53, 0x48, 0x41, 0x2d, 0x35, 0x31, 0x32, 0x2f] ++ dec_digits 256 :=
  sha512_t_iv_bootstrap 256 (by decide) (by decide) (by decide)

/-- C8 witness: `sha512_t 384` is rejected; `sha512_t 224` produces a 28-byte
digest. -/
theorem sha512_t_configuration_witness :
    sha512_t 384 [] = none ∧
      ∃ d, sha512_t 224 [] = some d ∧ d.length = (224 + 7) / 8 :=
  ⟨(sha512_t_configuration 384 []).1 (by norm_num),
    (sha512_t_configuration 224 []).2 (by norm_num) (by norm_num) (by norm_num)⟩

end Ctsha
